import Mathlib

/-!
Verification of the emoji-checker hook (`hooks/claude_code_hooks/emoji_checker.py`).

Text is modelled as `List Char` (Lean `Char` is a Unicode scalar value, matching
Python's one-code-point string items).  The Python regular expression
`COLORFUL_EMOJI_PATTERN` (a single character class of five code-point ranges,
repeated one or more times) is modelled by the per-character range test
`inColorfulRange`: `pattern.search(text)` succeeds iff some character of `text`
lies in one of the five ranges, and iterating the characters of all
`finditer` match groups in order visits exactly the in-range characters of
`text` in text order.
-/

namespace EmojiChecker

/-- The `COLORFUL_SYMBOLS` denylist set of `emoji_checker.py` (14 code points). -/
def COLORFUL_SYMBOLS : List Char :=
  ['\u2705', '\u274c', '\u2b50', '\u2764', '\u2728', '\u2733', '\u2734',
   '\u2747', '\u2757', '\u2753', '\u2755', '\u2795', '\u2796', '\u2797']

/-- Membership test for `COLORFUL_SYMBOLS` (Python `char in colorful_symbols`). -/
def isColorfulSymbol (c : Char) : Bool :=
  COLORFUL_SYMBOLS.contains c

/-- The five code-point ranges of `COLORFUL_EMOJI_PATTERN`: a character matches
the character class iff its scalar value lies in one of them. -/
def inColorfulRange (c : Char) : Bool :=
  decide ((0x1f600 ≤ c.toNat ∧ c.toNat ≤ 0x1f64f) ∨
          (0x1f680 ≤ c.toNat ∧ c.toNat ≤ 0x1f6ff) ∨
          (0x1f300 ≤ c.toNat ∧ c.toNat ≤ 0x1f5ff) ∨
          (0x1f900 ≤ c.toNat ∧ c.toNat ≤ 0x1f9ff) ∨
          (0x1f1e0 ≤ c.toNat ∧ c.toNat ≤ 0x1f1ff))

/-- `MONITORED_EXTENSIONS` from the source. -/
def MONITORED_EXTENSIONS : List (List Char) :=
  [".py".toList, ".md".toList, ".mdx".toList]

/-- `EmojiChecker.has_emojis`: early exit on empty text, then a scan for
denylist-set members, then the range pattern search. -/
def has_emojis (text : List Char) : Bool :=
  if text.isEmpty then false
  else if text.any (fun c => isColorfulSymbol c) then true
  else text.any (fun c => inColorfulRange c)

/-- One collection pass of `get_emoji_examples`: walk `text`, append each
character satisfying `p` that is not already in `acc`, and stop (flag `true`
for the set pass's early `return`) once `maxE` entries have been collected.
Both Python passes (the set loop and the loop over the characters of the range
matches) have exactly this shape. -/
def scanAux (p : Char → Bool) (maxE : Nat) (acc : List Char) : List Char → List Char × Bool
  | [] => (acc, false)
  | c :: rest =>
    if p c && !(acc.contains c) then
      if maxE ≤ acc.length + 1 then (acc ++ [c], true)
      else scanAux p maxE (acc ++ [c]) rest
    else scanAux p maxE acc rest

/-- `EmojiChecker.get_emoji_examples`: set pass (early return if it filled up),
then, if fewer than `maxE` were collected, the range pass over the same text. -/
def get_emoji_examples (text : List Char) (maxE : Nat := 3) : List Char :=
  let r1 := scanAux isColorfulSymbol maxE [] text
  if r1.2 then r1.1
  else if r1.1.length < maxE then (scanAux inColorfulRange maxE r1.1 text).1
  else r1.1

/-- Last path component, as `pathlib.PurePath.name`: split on the separator and
drop empty and `"."` components (pathlib normalises both away). -/
def pathName (file_path : List Char) : List Char :=
  ((file_path.splitOn '/').filter
    (fun comp => !(comp.isEmpty) && !(comp == ['.']))).getLast?.getD []

/-- `pathlib.PurePath.suffix`: with `i = name.rfind('.')` (here recovered from
the first dot of the reversed name), the suffix is `name[i:]` when
`0 < i < len(name) - 1` and empty otherwise. -/
def pathSuffix (name : List Char) : List Char :=
  match name.reverse.findIdx? (fun d => d == '.') with
  | none => []
  | some j =>
    let i := name.length - 1 - j
    if 0 < i ∧ i < name.length - 1 then name.drop i else []

/-- `EmojiChecker.is_monitored_file`: empty path is not monitored, otherwise
test the lower-cased suffix against `MONITORED_EXTENSIONS`.  (Python's
`str.lower` is modelled per character by `Char.toLower`; for comparisons
against these ASCII extensions the two agree.) -/
def is_monitored_file (file_path : List Char) : Bool :=
  if file_path.isEmpty then false
  else MONITORED_EXTENSIONS.contains ((pathSuffix (pathName file_path)).map Char.toLower)

/-- One element of the `edits` list of a `MultiEdit` payload; only the
`new_string` field is read (`none` models an absent field). -/
structure EditItem where
  new_string : Option (List Char)
deriving DecidableEq

/-- The `tool_input` mapping: each field the source ever reads, `none` when the
key is absent (`dict.get` with a default). -/
structure ToolInput where
  file_path : Option (List Char)
  content : Option (List Char)
  new_string : Option (List Char)
  edits : Option (List EditItem)
deriving DecidableEq

/-- `EmojiChecker.extract_content_from_tool_input`. -/
def extract_content_from_tool_input (tool_name : String) (tool_input : ToolInput) : List Char :=
  if tool_name = "Write" then (tool_input.content).getD []
  else if tool_name = "Edit" then (tool_input.new_string).getD []
  else if tool_name = "MultiEdit" then
    let edits := (tool_input.edits).getD []
    let content_parts := edits.filterMap (fun e =>
      let ns := (e.new_string).getD []
      if ns.isEmpty then none else some ns)
    List.intercalate [' '] content_parts
  else []

/-- A parsed hook request: `tool_name` and the `tool_input` mapping. -/
structure HookInput where
  tool_name : String
  tool_input : ToolInput
deriving DecidableEq

/-- The varying parts of the deny response built by `process_hook_request`:
the file-kind label, the reported path and the examples fragment interpolated
into the reason string. -/
structure Denial where
  file_type : String
  file_path : List Char
  examples_str : List Char
deriving DecidableEq

/-- `EmojiChecker.process_hook_request`: `none` is "allow", `some d` is the
deny response with the interpolated fields of `d`. -/
def process_hook_request (input_data : HookInput) : Option Denial :=
  let tool_name := input_data.tool_name
  let tool_input := input_data.tool_input
  if tool_name ∈ (["Write", "Edit", "MultiEdit"] : List String) then
    let file_path := (tool_input.file_path).getD []
    if is_monitored_file file_path then
      let content := extract_content_from_tool_input tool_name tool_input
      if has_emojis content then
        let emoji_examples := get_emoji_examples content
        let examples_str :=
          if emoji_examples.isEmpty then "detected".toList
          else List.intercalate [' '] (emoji_examples.map (fun c => [c]))
        let file_type : String :=
          if List.isSuffixOf ".py".toList file_path then "Python" else "Markdown"
        some ⟨file_type, file_path, examples_str⟩
      else none
    else none
  else none

/-- Outcome of one `main` invocation: a JSON-parse failure is reported on
stderr with exit code 1, distinct from the allow (exit 0, no output) and deny
(exit 0, deny JSON printed) outcomes. -/
inductive MainOutcome where
  | parseError
  | allow
  | deny (d : Denial)
deriving DecidableEq

/-- `main`: stdin either fails to parse (`none`) or yields a `HookInput`. -/
def main (parsed : Option HookInput) : MainOutcome :=
  match parsed with
  | none => .parseError
  | some input_data =>
    match process_hook_request input_data with
    | some d => .deny d
    | none => .allow

/-- The six monochrome lookalikes that the hook documents as always permitted. -/
def MONOCHROME_LOOKALIKES : List Char :=
  ['✓', '×', '→', '•', '–', '—']

/-- Specification-side companion of the collection passes: the list of first
occurrences of `l` in order (classical `nub`).  `scanAux p maxE [] text`
computes a truncation of `firstDedup (text.filter p)`. -/
def firstDedup : List Char → List Char
  | [] => []
  | c :: rest => c :: firstDedup (rest.filter (fun d => !(d == c)))
termination_by l => l.length
decreasing_by
  simp_wf
  have := List.length_filter_le (fun d => !(d == c)) rest
  omega

/-! ### Basic helper lemmas -/

theorem contains_eq_decide_mem {α : Type} [BEq α] [LawfulBEq α] (l : List α) (a : α) :
    l.contains a = decide (a ∈ l) := by
  rw [show l.contains a = l.elem a from rfl, List.elem_eq_mem]

theorem isColorfulSymbol_iff (c : Char) :
    isColorfulSymbol c = true ↔ c ∈ COLORFUL_SYMBOLS := by
  rw [isColorfulSymbol, contains_eq_decide_mem, decide_eq_true_eq]

/-- The denylist set and the denylist ranges are disjoint. -/
theorem symbols_not_in_range : ∀ c ∈ COLORFUL_SYMBOLS, inColorfulRange c = false := by
  decide

/-- `has_emojis` fires exactly on texts holding a denylist-set member or a
range member. -/
theorem hasEmojis_iff_exists (text : List Char) :
    has_emojis text = true ↔
      ∃ c ∈ text, isColorfulSymbol c = true ∨ inColorfulRange c = true := by
  cases htext : text.isEmpty
  · cases hany : text.any (fun c => isColorfulSymbol c)
    · simp only [has_emojis, htext, Bool.false_eq_true, if_false, hany, List.any_eq_true]
      rw [List.any_eq_false] at hany
      constructor
      · rintro ⟨c, hc, hrange⟩
        exact ⟨c, hc, Or.inr hrange⟩
      · rintro ⟨c, hc, hsym | hrange⟩
        · exact absurd hsym (by simpa using hany c hc)
        · exact ⟨c, hc, hrange⟩
    · obtain ⟨c, hc, hsym⟩ := List.any_eq_true.mp hany
      refine iff_of_true ?_ ⟨c, hc, Or.inl hsym⟩
      simp [has_emojis, htext, hany]
  · rw [List.isEmpty_iff] at htext
    subst htext
    simp [has_emojis]

/-! ### C1 -/

/-- C1: `has_emojis` returns `true` iff the text contains a character from the
14-member denylist set or a character in one of the five denylist code-point
ranges; empty text returns `false`. -/
theorem has_emojis_characterization :
    COLORFUL_SYMBOLS.length = 14 ∧
    has_emojis [] = false ∧
    ∀ text : List Char, has_emojis text = true ↔
      ∃ c ∈ text, c ∈ COLORFUL_SYMBOLS ∨
        (0x1f600 ≤ c.toNat ∧ c.toNat ≤ 0x1f64f) ∨
        (0x1f680 ≤ c.toNat ∧ c.toNat ≤ 0x1f6ff) ∨
        (0x1f300 ≤ c.toNat ∧ c.toNat ≤ 0x1f5ff) ∨
        (0x1f900 ≤ c.toNat ∧ c.toNat ≤ 0x1f9ff) ∨
        (0x1f1e0 ≤ c.toNat ∧ c.toNat ≤ 0x1f1ff) := by
  refine ⟨rfl, rfl, fun text => ?_⟩
  rw [hasEmojis_iff_exists]
  apply exists_congr
  intro c
  rw [isColorfulSymbol_iff, inColorfulRange, decide_eq_true_eq]

/-- Unfolded form of `process_hook_request` (the `let` bindings of the source
zeta-reduced), convenient for case splitting. -/
theorem process_hook_request_eq (input_data : HookInput) :
    process_hook_request input_data =
      (if input_data.tool_name ∈ (["Write", "Edit", "MultiEdit"] : List String) then
        if is_monitored_file ((input_data.tool_input.file_path).getD []) then
          if has_emojis
              (extract_content_from_tool_input input_data.tool_name input_data.tool_input) then
            some ⟨(if List.isSuffixOf ".py".toList ((input_data.tool_input.file_path).getD [])
                   then "Python" else "Markdown"),
                  (input_data.tool_input.file_path).getD [],
                  (if (get_emoji_examples
                        (extract_content_from_tool_input input_data.tool_name
                          input_data.tool_input)).isEmpty
                   then "detected".toList
                   else List.intercalate [' ']
                     ((get_emoji_examples
                        (extract_content_from_tool_input input_data.tool_name
                          input_data.tool_input)).map (fun c => [c])))⟩
          else none
        else none
      else none) := rfl

/-! ### C3 -/

/-- C3: the monochrome lookalikes are neither denylist-set members nor
range members, so any text made only of lookalikes and other non-denylisted
characters is classified clean, and no request whose extracted content is such
a text is ever denied. -/
theorem monochrome_lookalikes_never_trigger :
    (∀ c ∈ MONOCHROME_LOOKALIKES, isColorfulSymbol c = false ∧ inColorfulRange c = false) ∧
    ∀ text : List Char,
      (∀ c ∈ text, c ∈ MONOCHROME_LOOKALIKES ∨
        (isColorfulSymbol c = false ∧ inColorfulRange c = false)) →
      has_emojis text = false ∧
      ∀ input_data : HookInput,
        extract_content_from_tool_input input_data.tool_name input_data.tool_input = text →
        process_hook_request input_data = none := by
  have hlook : ∀ c ∈ MONOCHROME_LOOKALIKES,
      isColorfulSymbol c = false ∧ inColorfulRange c = false := by decide
  refine ⟨hlook, fun text htext => ?_⟩
  have hclean : has_emojis text = false := by
    rw [← Bool.not_eq_true, hasEmojis_iff_exists]
    rintro ⟨c, hc, hbad⟩
    have : isColorfulSymbol c = false ∧ inColorfulRange c = false := by
      rcases htext c hc with hl | hok
      · exact hlook c hl
      · exact hok
    rcases hbad with hb | hb <;> rw [hb] at this <;> simp at this
  refine ⟨hclean, fun input_data hextract => ?_⟩
  rw [process_hook_request_eq, hextract, hclean]
  simp

/-- C3 witness: a concrete text of the four documented lookalikes is allowed
through a Write to a monitored Markdown file. -/
theorem monochrome_lookalikes_never_trigger_witness :
    (∀ c ∈ (['✓', '×', '→', '•'] : List Char),
      c ∈ MONOCHROME_LOOKALIKES ∨
        (isColorfulSymbol c = false ∧ inColorfulRange c = false)) ∧
    has_emojis ['✓', '×', '→', '•'] = false ∧
    process_hook_request
      ⟨"Write", ⟨some ("a.md".toList), some ['✓', '×', '→', '•'],
        none, none⟩⟩ = none := by
  have h := monochrome_lookalikes_never_trigger.2
    ['✓', '×', '→', '•'] (by decide)
  exact ⟨by decide, h.1, h.2 _ rfl⟩

/-! ### C5 -/

theorem filterMap_edits (l : List EditItem) :
    (l.filterMap (fun e =>
      if ((e.new_string).getD []).isEmpty then none else some ((e.new_string).getD []))) =
    ((l.map (fun e => (e.new_string).getD [])).filter (fun s => !s.isEmpty)) := by
  induction l with
  | nil => rfl
  | cons e rest ih =>
    rw [List.filterMap_cons, List.map_cons, List.filter_cons, ih]
    cases h : ((e.new_string).getD []).isEmpty <;> simp [h]

/-- C5: extraction yields `content` for Write, `new_string` for Edit, the
space-joined non-empty `new_string` values (in edit order) for MultiEdit, and
the empty string for any other tool; every missing field degrades to the empty
string. -/
theorem extract_content_spec :
    (∀ ti : ToolInput, extract_content_from_tool_input "Write" ti = ti.content.getD []) ∧
    (∀ ti : ToolInput, extract_content_from_tool_input "Edit" ti = ti.new_string.getD []) ∧
    (∀ ti : ToolInput, extract_content_from_tool_input "MultiEdit" ti =
      List.intercalate [' ']
        (((ti.edits.getD []).map (fun e => (e.new_string).getD [])).filter
          (fun s => !s.isEmpty))) ∧
    (∀ (tool_name : String) (ti : ToolInput),
      tool_name ∉ (["Write", "Edit", "MultiEdit"] : List String) →
      extract_content_from_tool_input tool_name ti = []) := by
  refine ⟨fun ti => rfl, fun ti => rfl, fun ti => ?_, fun tool_name ti h => ?_⟩
  · exact congrArg (List.intercalate [' ']) (filterMap_edits (ti.edits.getD []))
  · simp only [List.mem_cons, List.mem_singleton, not_or] at h
    obtain ⟨h1, h2, h3, _⟩ := h
    unfold extract_content_from_tool_input
    rw [if_neg h1, if_neg h2, if_neg h3]

/-- C5 witness: a tool outside the three monitored kinds extracts nothing. -/
theorem extract_content_spec_witness :
    ("Bash" : String) ∉ (["Write", "Edit", "MultiEdit"] : List String) ∧
    extract_content_from_tool_input "Bash" ⟨none, some ("x".toList), none, none⟩ = [] := by
  exact ⟨by decide, extract_content_spec.2.2.2 "Bash" _ (by decide)⟩

/-! ### C8 -/

/-- C8: a top-level input that fails to parse yields the dedicated
`parseError` outcome, which differs from the allow outcome and from every deny
outcome; every parsed input is classified totally into allow or deny (the
classification logic is a total function and cannot raise). -/
theorem parse_failure_distinct_and_total :
    main none = MainOutcome.parseError ∧
    MainOutcome.parseError ≠ MainOutcome.allow ∧
    (∀ d : Denial, MainOutcome.parseError ≠ MainOutcome.deny d) ∧
    ∀ input_data : HookInput,
      main (some input_data) = MainOutcome.allow ∨
      ∃ d : Denial, main (some input_data) = MainOutcome.deny d := by
  refine ⟨rfl, fun h => MainOutcome.noConfusion h,
    fun d h => MainOutcome.noConfusion h, fun input_data => ?_⟩
  cases h : process_hook_request input_data with
  | none => exact Or.inl (by simp [main, h])
  | some d => exact Or.inr ⟨d, by simp [main, h]⟩

/-! ### Path / monitoring lemmas -/

/-- A non-monitored target path makes the hook allow the operation before any
content is extracted or scanned. -/
theorem process_none_of_not_monitored (input_data : HookInput)
    (h : is_monitored_file ((input_data.tool_input.file_path).getD []) = false) :
    process_hook_request input_data = none := by
  rw [process_hook_request_eq, h]
  simp

/-! ### C4 -/

/-- C4: a path is monitored iff it is non-empty and its lower-cased
`pathlib`-style suffix is `.py`, `.md` or `.mdx`; the empty path and
`notes.txt` are not monitored, and every request whose target path is not
monitored is allowed no matter what payload it carries. -/
theorem is_monitored_file_spec :
    (∀ p : List Char, is_monitored_file p = true ↔
      p ≠ [] ∧ ((pathSuffix (pathName p)).map Char.toLower = ".py".toList ∨
                (pathSuffix (pathName p)).map Char.toLower = ".md".toList ∨
                (pathSuffix (pathName p)).map Char.toLower = ".mdx".toList)) ∧
    is_monitored_file [] = false ∧
    is_monitored_file ("notes.txt".toList) = false ∧
    (∀ input_data : HookInput,
      is_monitored_file ((input_data.tool_input.file_path).getD []) = false →
      process_hook_request input_data = none) ∧
    (∀ (tool_name : String) (content new_string : Option (List Char))
        (edits : Option (List EditItem)),
      process_hook_request
        ⟨tool_name, ⟨some ("notes.txt".toList), content, new_string, edits⟩⟩ = none) := by
  have hnotes : is_monitored_file ("notes.txt".toList) = false := by decide
  refine ⟨fun p => ?_, rfl, hnotes,
    fun input_data h => process_none_of_not_monitored input_data h,
    fun tool_name content new_string edits =>
      process_none_of_not_monitored
        ⟨tool_name, ⟨some ("notes.txt".toList), content, new_string, edits⟩⟩ hnotes⟩
  cases hp : p.isEmpty
  · have hpne : p ≠ [] := by
      intro hh
      rw [hh] at hp
      exact absurd hp (by decide)
    simp only [is_monitored_file, hp, Bool.false_eq_true, if_false,
      contains_eq_decide_mem, decide_eq_true_eq, MONITORED_EXTENSIONS,
      List.mem_cons, List.not_mem_nil, or_false]
    exact (and_iff_right hpne).symm
  · rw [List.isEmpty_iff] at hp
    subst hp
    simp [is_monitored_file]

/-- C4 witness: the unmonitored `notes.txt` request is allowed even though its
content holds a denylisted character. -/
theorem is_monitored_file_spec_witness :
    is_monitored_file
      ((((⟨"Write", ⟨some ("notes.txt".toList), some ['✅'], none, none⟩⟩ :
        HookInput)).tool_input.file_path).getD []) = false ∧
    process_hook_request
      ⟨"Write", ⟨some ("notes.txt".toList), some ['✅'], none, none⟩⟩ = none :=
  ⟨by decide, is_monitored_file_spec.2.2.2.1 _ (by decide)⟩

/-! ### C10 -/

/-- A dot-initial name with no second dot has an empty `pathlib` suffix. -/
theorem pathSuffix_hidden (t : List Char) (h : '.' ∉ t) :
    pathSuffix ('.' :: t) = [] := by
  unfold pathSuffix
  have hrev : ('.' :: t).reverse = t.reverse ++ ['.'] := by simp
  have h1 : (t.reverse.findIdx? (fun d => d == '.')) = none := by
    rw [List.findIdx?_eq_none_iff]
    intro x hx
    have hxt : x ∈ t := List.mem_reverse.mp hx
    have : x ≠ '.' := fun hh => h (hh ▸ hxt)
    simpa using this
  rw [hrev, List.findIdx?_append, h1]
  simp

/-- C10: a path whose final component starts with a dot and has no further dot
(`".py"`, `"dir/.md"`) has an empty extension, is not monitored, and every
operation targeting it is allowed. -/
theorem hidden_file_not_monitored :
    is_monitored_file (".py".toList) = false ∧
    is_monitored_file ("dir/.md".toList) = false ∧
    (∀ (p t : List Char), pathName p = '.' :: t → '.' ∉ t →
      is_monitored_file p = false) ∧
    (∀ (input_data : HookInput) (t : List Char),
      pathName ((input_data.tool_input.file_path).getD []) = '.' :: t → '.' ∉ t →
      process_hook_request input_data = none) := by
  have hmain : ∀ (p t : List Char), pathName p = '.' :: t → '.' ∉ t →
      is_monitored_file p = false := by
    intro p t hname ht
    unfold is_monitored_file
    cases hp : p.isEmpty
    · rw [hname, pathSuffix_hidden t ht]
      simp only [hp, Bool.false_eq_true, if_false]
      decide
    · simp [hp]
  exact ⟨by decide, by decide, hmain,
    fun input_data t hname ht =>
      process_none_of_not_monitored input_data (hmain _ t hname ht)⟩

/-- C10 witness: the hidden file `".py"` itself, written with denylisted
content, is still allowed. -/
theorem hidden_file_not_monitored_witness :
    pathName
      ((((⟨"Write", ⟨some (".py".toList), some ['✅'], none, none⟩⟩ :
        HookInput)).tool_input.file_path).getD []) = '.' :: "py".toList ∧
    ('.' ∉ "py".toList) ∧
    process_hook_request
      ⟨"Write", ⟨some (".py".toList), some ['✅'], none, none⟩⟩ = none :=
  ⟨by decide, by decide,
    hidden_file_not_monitored.2.2.2 _ ("py".toList) (by decide) (by decide)⟩

/-! ### C2 -/

/-- C2 counterexample: the path `"FILE.PY"` is monitored (case-insensitive
suffix check), its write is denied, yet the denial labels it `"Markdown"`,
not `"Python"` — the label comparison `endswith(".py")` is case-sensitive. -/
theorem file_type_label_cex :
    process_hook_request
      ⟨"Write", ⟨some ("FILE.PY".toList), some ['✅'], none, none⟩⟩ =
      some ⟨"Markdown", "FILE.PY".toList, ['✅']⟩ ∧
    is_monitored_file ("FILE.PY".toList) = true ∧
    ("Markdown" : String) ≠ "Python" :=
  ⟨by decide, by decide, by decide⟩

/-- C2 amended: the file-kind label in a denial is computed by a
case-sensitive suffix test: it is `"Python"` exactly when the path ends with
the literal `".py"`, and `"Markdown"` otherwise (so `"FILE.PY"` or `"File.Py"`
are labeled `"Markdown"`, while `.md`/`.mdx` paths also get `"Markdown"`). -/
theorem file_type_label_case_sensitive :
    ∀ (input_data : HookInput) (d : Denial),
      process_hook_request input_data = some d →
      d.file_type = (if List.isSuffixOf ".py".toList ((input_data.tool_input.file_path).getD [])
                     then "Python" else "Markdown") ∧
      (List.isSuffixOf ".py".toList ((input_data.tool_input.file_path).getD []) = true →
        d.file_type = "Python") ∧
      (List.isSuffixOf ".py".toList ((input_data.tool_input.file_path).getD []) = false →
        d.file_type = "Markdown") := by
  intro input_data d h
  rw [process_hook_request_eq] at h
  split at h
  · split at h
    · split at h
      · have hd := (Option.some.inj h).symm
        subst hd
        exact ⟨rfl, fun hs => by simp only [hs]; rfl, fun hs => by simp only [hs]; rfl⟩
      · exact Option.noConfusion h
    · exact Option.noConfusion h
  · exact Option.noConfusion h

/-- C2 amended witness: a lower-case `.py` denial is labeled `"Python"`. -/
theorem file_type_label_case_sensitive_witness :
    process_hook_request
      ⟨"Write", ⟨some ("file.py".toList), some ['✅'], none, none⟩⟩ =
      some ⟨"Python", "file.py".toList, ['✅']⟩ ∧
    (⟨"Python", "file.py".toList, ['✅']⟩ : Denial).file_type = "Python" :=
  ⟨by decide,
    (file_type_label_case_sensitive
      ⟨"Write", ⟨some ("file.py".toList), some ['✅'], none, none⟩⟩
      ⟨"Python", "file.py".toList, ['✅']⟩ (by decide)).2.1 (by decide)⟩

/-! ### `firstDedup` lemmas -/

theorem firstDedup_nil : firstDedup [] = [] := by
  rw [firstDedup]

theorem firstDedup_cons (c : Char) (rest : List Char) :
    firstDedup (c :: rest) = c :: firstDedup (rest.filter (fun d => !(d == c))) := by
  rw [firstDedup]

theorem mem_firstDedup : ∀ (l : List Char) (a : Char), a ∈ firstDedup l ↔ a ∈ l := by
  intro l
  induction l using firstDedup.induct with
  | case1 => intro a; rw [firstDedup]
  | case2 c rest ih =>
    intro a
    rw [firstDedup]
    simp only [List.mem_cons, ih, List.mem_filter, Bool.not_eq_eq_eq_not, Bool.not_true,
      beq_eq_false_iff_ne, ne_eq]
    by_cases hac : a = c
    · simp [hac]
    · simp [hac]

theorem nodup_firstDedup : ∀ l : List Char, (firstDedup l).Nodup := by
  intro l
  induction l using firstDedup.induct with
  | case1 => rw [firstDedup]; exact List.nodup_nil
  | case2 c rest ih =>
    rw [firstDedup]
    refine List.nodup_cons.mpr ⟨?_, ih⟩
    intro hmem
    rw [mem_firstDedup, List.mem_filter] at hmem
    simp at hmem

theorem firstDedup_eq_nil_iff (l : List Char) : firstDedup l = [] ↔ l = [] := by
  cases l with
  | nil => simp [firstDedup]
  | cons c rest => rw [firstDedup]; simp

/-- Relative order inside a filtered list lifts to relative order of first
occurrences in the original list. -/
theorem indexOf_filter_lt (q : Char → Bool) :
    ∀ (l : List Char) (a b : Char), a ∈ l.filter q → b ∈ l.filter q →
      (l.filter q).indexOf a < (l.filter q).indexOf b → l.indexOf a < l.indexOf b := by
  intro l
  induction l with
  | nil => intro a b ha; simp at ha
  | cons d l ih =>
    intro a b ha hb hlt
    by_cases hqd : q d = true
    · rw [List.filter_cons_of_pos hqd] at ha hb hlt
      by_cases had : a = d
      · subst had
        have hbd : b ≠ a := by
          intro hh
          subst hh
          exact Nat.lt_irrefl _ hlt
        rw [List.indexOf_cons_self, List.indexOf_cons_ne _ (Ne.symm hbd)]
        exact Nat.succ_pos _
      · by_cases hbd : b = d
        · subst hbd
          rw [List.indexOf_cons_ne _ (fun hh => had hh.symm), List.indexOf_cons_self] at hlt
          exact absurd hlt (Nat.not_lt_zero _)
        · rw [List.indexOf_cons_ne _ (fun hh => had hh.symm),
            List.indexOf_cons_ne _ (fun hh => hbd hh.symm)] at hlt
          rw [List.indexOf_cons_ne _ (fun hh => had hh.symm),
            List.indexOf_cons_ne _ (fun hh => hbd hh.symm)]
          have ha' : a ∈ l.filter q := by
            rcases List.mem_cons.mp ha with hh | hh
            · exact absurd hh had
            · exact hh
          have hb' : b ∈ l.filter q := by
            rcases List.mem_cons.mp hb with hh | hh
            · exact absurd hh hbd
            · exact hh
          exact Nat.succ_lt_succ (ih a b ha' hb' (Nat.lt_of_succ_lt_succ hlt))
    · rw [List.filter_cons_of_neg hqd] at ha hb hlt
      have haq : q a = true := (List.mem_filter.mp ha).2
      have hbq : q b = true := (List.mem_filter.mp hb).2
      have had : a ≠ d := fun hh => hqd (hh ▸ haq)
      have hbd : b ≠ d := fun hh => hqd (hh ▸ hbq)
      rw [List.indexOf_cons_ne _ (fun hh => had hh.symm),
        List.indexOf_cons_ne _ (fun hh => hbd hh.symm)]
      exact Nat.succ_lt_succ (ih a b ha hb hlt)

/-- `firstDedup` lists characters in order of first occurrence. -/
theorem pairwise_indexOf_firstDedup :
    ∀ l : List Char, (firstDedup l).Pairwise (fun a b => l.indexOf a < l.indexOf b) := by
  intro l
  induction l using firstDedup.induct with
  | case1 => rw [firstDedup]; exact List.Pairwise.nil
  | case2 c rest ih =>
    rw [firstDedup]
    refine List.pairwise_cons.mpr ⟨?_, ?_⟩
    · intro b hb
      rw [mem_firstDedup, List.mem_filter] at hb
      have hbc : b ≠ c := by simpa using hb.2
      rw [List.indexOf_cons_self, List.indexOf_cons_ne _ (Ne.symm hbc)]
      exact Nat.succ_pos _
    · refine ih.imp_of_mem ?_
      intro a b ha hb hlt
      rw [mem_firstDedup] at ha hb
      have hac : a ≠ c := by simpa using (List.mem_filter.mp ha).2
      have hbc : b ≠ c := by simpa using (List.mem_filter.mp hb).2
      rw [List.indexOf_cons_ne _ (Ne.symm hac), List.indexOf_cons_ne _ (Ne.symm hbc)]
      exact Nat.succ_lt_succ
        (indexOf_filter_lt (fun d => !(d == c)) rest a b ha hb hlt)

/-! ### The collection passes compute truncated first-occurrence dedups -/

/-- As long as the accumulator is not yet full, a collection pass extends it
with the first occurrences of the scanned characters satisfying `p` that are
not already collected, truncated at `maxE`; the early-return flag fires
exactly when the truncation was reached. -/
theorem scanAux_eq (p : Char → Bool) (maxE : Nat) :
    ∀ (text acc : List Char), acc.length < maxE →
    scanAux p maxE acc text =
      ((acc ++ firstDedup ((text.filter p).filter (fun d => !(acc.contains d)))).take maxE,
       decide (maxE ≤
         (acc ++ firstDedup ((text.filter p).filter (fun d => !(acc.contains d)))).length)) := by
  intro text
  induction text with
  | nil =>
    intro acc h
    rw [scanAux]
    simp only [List.filter_nil, firstDedup_nil, List.append_nil]
    rw [List.take_of_length_le (Nat.le_of_lt h), decide_eq_false (by omega)]
  | cons c rest ih =>
    intro acc h
    by_cases hc : (p c && !(acc.contains c)) = true
    · obtain ⟨hp, hnc⟩ := Bool.and_eq_true_iff.mp hc
      have hfilter : ((c :: rest).filter p).filter (fun d => !(acc.contains d)) =
          c :: ((rest.filter p).filter (fun d => !(acc.contains d))) := by
        simp only [List.filter_cons, hp, hnc, if_true]
      have hstep :
          (((rest.filter p).filter (fun d => !(acc.contains d))).filter (fun d => !(d == c)))
            = ((rest.filter p).filter (fun d => !((acc ++ [c]).contains d))) := by
        rw [List.filter_filter]
        apply List.filter_congr
        intro d hd
        by_cases hdc : d = c <;> by_cases hda : d ∈ acc <;>
          simp [contains_eq_decide_mem, hdc, hda]
      have key : acc ++ firstDedup (((c :: rest).filter p).filter (fun d => !(acc.contains d)))
          = (acc ++ [c]) ++
            firstDedup ((rest.filter p).filter (fun d => !((acc ++ [c]).contains d))) := by
        rw [hfilter, firstDedup_cons, hstep, List.append_cons]
      rw [scanAux, if_pos hc, key]
      by_cases h1 : maxE ≤ acc.length + 1
      · rw [if_pos h1]
        have hlen : maxE = (acc ++ [c]).length := by simp; omega
        rw [Prod.mk.injEq]
        constructor
        · rw [hlen, List.take_left]
        · have hle : maxE ≤
              ((acc ++ [c]) ++ firstDedup ((rest.filter p).filter
                (fun d => !((acc ++ [c]).contains d)))).length := by
            rw [List.length_append]
            omega
          rw [decide_eq_true hle]
      · rw [if_neg h1]
        have h2 : (acc ++ [c]).length < maxE := by simp; omega
        rw [ih (acc ++ [c]) h2]
    · have hc' : (p c && !(acc.contains c)) = false := Bool.eq_false_iff.mpr hc
      have hfilter : ((c :: rest).filter p).filter (fun d => !(acc.contains d)) =
          (rest.filter p).filter (fun d => !(acc.contains d)) := by
        by_cases hp : p c = true
        · have hq : (!(acc.contains c)) = false := by
            rcases Bool.and_eq_false_iff.mp hc' with hh | hh
            · rw [hp] at hh; exact absurd hh (by decide)
            · exact hh
          simp only [List.filter_cons, hp, hq, if_true, Bool.false_eq_true, if_false]
        · have hp' : p c = false := Bool.eq_false_iff.mpr hp
          simp only [List.filter_cons, hp', Bool.false_eq_true, if_false]
      rw [scanAux, if_neg hc, hfilter]
      exact ih acc h

/-- Elements of the set-pass result are denylist-set members; elements of the
range-pass dedup are range members; the two are disjoint. -/
theorem firstDedup_filter_disjoint (text : List Char) :
    List.Disjoint (firstDedup (text.filter isColorfulSymbol))
      (firstDedup (text.filter inColorfulRange)) := by
  intro a haS haR
  have h1 : isColorfulSymbol a = true :=
    (List.mem_filter.mp ((mem_firstDedup _ a).mp haS)).2
  have h2 : inColorfulRange a = true :=
    (List.mem_filter.mp ((mem_firstDedup _ a).mp haR)).2
  have h3 := symbols_not_in_range a ((isColorfulSymbol_iff a).mp h1)
  rw [h3] at h2
  exact Bool.noConfusion h2

/-- Characterisation of `get_emoji_examples` for a positive budget: it is the
first-occurrence dedup of the denylist-set characters of the text, followed by
the first-occurrence dedup of its range characters, truncated to `maxE`. -/
theorem get_emoji_examples_eq (text : List Char) (maxE : Nat) (h : 1 ≤ maxE) :
    get_emoji_examples text maxE =
      (firstDedup (text.filter isColorfulSymbol) ++
       firstDedup (text.filter inColorfulRange)).take maxE := by
  have h0 : ([] : List Char).length < maxE := by simpa using h
  have htriv : ∀ l : List Char, l.filter (fun d => !(([] : List Char).contains d)) = l := by
    intro l
    apply List.filter_eq_self.mpr
    intro a _
    rfl
  have hsym := scanAux_eq isColorfulSymbol maxE text [] h0
  rw [htriv, List.nil_append] at hsym
  unfold get_emoji_examples
  rw [hsym]
  by_cases hfull : maxE ≤ (firstDedup (text.filter isColorfulSymbol)).length
  · rw [decide_eq_true hfull]
    simp only [if_true]
    have hz : maxE - (firstDedup (text.filter isColorfulSymbol)).length = 0 := by omega
    rw [List.take_append_eq_append_take, hz, List.take_zero, List.append_nil]
  · rw [decide_eq_false hfull]
    simp only [Bool.false_eq_true, if_false]
    have hlt : (firstDedup (text.filter isColorfulSymbol)).length < maxE :=
      Nat.lt_of_not_le hfull
    rw [List.take_of_length_le (Nat.le_of_lt hlt), if_pos hlt]
    have hself : (text.filter inColorfulRange).filter
        (fun d => !((firstDedup (text.filter isColorfulSymbol)).contains d)) =
        text.filter inColorfulRange := by
      apply List.filter_eq_self.mpr
      intro a ha
      have hnotS : a ∉ firstDedup (text.filter isColorfulSymbol) := by
        intro haS
        exact firstDedup_filter_disjoint text haS
          ((mem_firstDedup _ a).mpr ha)
      simp [contains_eq_decide_mem, hnotS]
    have hrng := scanAux_eq inColorfulRange maxE text
      (firstDedup (text.filter isColorfulSymbol)) hlt
    rw [hself] at hrng
    rw [hrng]

/-- With a zero budget the set pass either collects nothing or early-returns a
single character. -/
theorem scanAux_zero (p : Char → Bool) :
    ∀ (text acc : List Char),
      scanAux p 0 acc text = (acc, false) ∨
      ∃ c, scanAux p 0 acc text = (acc ++ [c], true) := by
  intro text
  induction text with
  | nil => intro acc; exact Or.inl (by rw [scanAux])
  | cons c rest ih =>
    intro acc
    by_cases hc : (p c && !(acc.contains c)) = true
    · exact Or.inr ⟨c, by rw [scanAux, if_pos hc, if_pos (Nat.zero_le _)]⟩
    · rw [scanAux, if_neg hc]
      exact ih acc

/-- With a zero budget `get_emoji_examples` returns at most one character. -/
theorem get_emoji_examples_zero_len (text : List Char) :
    (get_emoji_examples text 0).length ≤ 1 := by
  unfold get_emoji_examples
  rcases scanAux_zero isColorfulSymbol text [] with h | ⟨c, h⟩
  · rw [h]
    simp
  · rw [h]
    simp

/-! ### C6 -/

/-- C6 counterexample: with `maxExamples = 0` the set pass appends before it
compares against the budget, so it returns one entry — more than
`maxExamples`. -/
theorem examples_budget_cex :
    get_emoji_examples ['✅'] 0 = ['✅'] ∧
    ¬ ((get_emoji_examples ['✅'] 0).length ≤ 0) :=
  ⟨by decide, by decide⟩

/-- C6 amended: for every `maxExamples ≥ 1` (the bound fails only at 0, where
the appended-then-checked first entry slips through), the example list has at
most `maxExamples` entries, never a duplicate, only offending characters of
the text, and at most as many entries as the text has distinct offending
characters — hence fewer than `maxExamples` when there are fewer. -/
theorem examples_bounds (text : List Char) (maxE : Nat) (h : 1 ≤ maxE) :
    (get_emoji_examples text maxE).length ≤ maxE ∧
    (get_emoji_examples text maxE).Nodup ∧
    (∀ c ∈ get_emoji_examples text maxE,
      c ∈ text ∧ (isColorfulSymbol c = true ∨ inColorfulRange c = true)) ∧
    (get_emoji_examples text maxE).length ≤
      (firstDedup (text.filter (fun c => isColorfulSymbol c || inColorfulRange c))).length ∧
    ((firstDedup (text.filter (fun c => isColorfulSymbol c || inColorfulRange c))).length
        < maxE →
      (get_emoji_examples text maxE).length < maxE) := by
  rw [get_emoji_examples_eq text maxE h]
  have hnodup : ((firstDedup (text.filter isColorfulSymbol) ++
      firstDedup (text.filter inColorfulRange)).take maxE).Nodup :=
    List.Pairwise.sublist (List.take_sublist _ _)
      (List.Nodup.append (nodup_firstDedup _) (nodup_firstDedup _)
        (firstDedup_filter_disjoint text))
  have hmem : ∀ c ∈ (firstDedup (text.filter isColorfulSymbol) ++
      firstDedup (text.filter inColorfulRange)).take maxE,
      c ∈ text ∧ (isColorfulSymbol c = true ∨ inColorfulRange c = true) := by
    intro c hc
    have hc2 := List.take_subset _ _ hc
    rcases List.mem_append.mp hc2 with hcs | hcr
    · have := List.mem_filter.mp ((mem_firstDedup _ c).mp hcs)
      exact ⟨this.1, Or.inl this.2⟩
    · have := List.mem_filter.mp ((mem_firstDedup _ c).mp hcr)
      exact ⟨this.1, Or.inr this.2⟩
  have hdistinct : ((firstDedup (text.filter isColorfulSymbol) ++
      firstDedup (text.filter inColorfulRange)).take maxE).length ≤
      (firstDedup (text.filter (fun c => isColorfulSymbol c || inColorfulRange c))).length := by
    have hsub : (firstDedup (text.filter isColorfulSymbol) ++
        firstDedup (text.filter inColorfulRange)).take maxE ⊆
        firstDedup (text.filter (fun c => isColorfulSymbol c || inColorfulRange c)) := by
      intro c hc
      obtain ⟨hct, hoff⟩ := hmem c hc
      refine (mem_firstDedup _ c).mpr (List.mem_filter.mpr ⟨hct, ?_⟩)
      rcases hoff with hh | hh <;> simp [hh]
    exact (List.Nodup.subperm hnodup hsub).length_le
  refine ⟨?_, hnodup, hmem, hdistinct, fun hlt => ?_⟩
  · rw [List.length_take]
    exact Nat.min_le_left _ _
  · omega

/-- C6 amended witness: at the default budget 3, a text with two distinct
offending characters yields two examples — within every stated bound. -/
theorem examples_bounds_witness :
    (1 ≤ 3) ∧
    (get_emoji_examples ['✅', 'a', '✅', '❌'] 3).length ≤ 3 ∧
    (get_emoji_examples ['✅', 'a', '✅', '❌'] 3).Nodup := by
  have hb := examples_bounds ['✅', 'a', '✅', '❌'] 3 (by omega)
  exact ⟨by omega, hb.1, hb.2.1⟩

/-! ### C7 -/

/-- C7: in the example list, every denylist-set character precedes every
character matching only the ranges regardless of their positions in the text,
and within each of the two categories characters appear in order of first
occurrence in the text (`List.indexOf`). -/
theorem examples_ordering (text : List Char) (maxE : Nat) :
    (get_emoji_examples text maxE).Pairwise (fun a b =>
      (b ∈ COLORFUL_SYMBOLS → a ∈ COLORFUL_SYMBOLS) ∧
      (a ∈ COLORFUL_SYMBOLS → b ∈ COLORFUL_SYMBOLS →
        text.indexOf a < text.indexOf b) ∧
      (inColorfulRange a = true → inColorfulRange b = true →
        text.indexOf a < text.indexOf b)) := by
  rcases Nat.eq_zero_or_pos maxE with h0 | hpos
  · subst h0
    have hlen := get_emoji_examples_zero_len text
    cases hget : get_emoji_examples text 0 with
    | nil => exact List.Pairwise.nil
    | cons a tail =>
      have htail : tail = [] := by
        rw [hget, List.length_cons] at hlen
        exact List.eq_nil_of_length_eq_zero (by omega)
      subst htail
      simp
  · rw [get_emoji_examples_eq text maxE hpos]
    refine List.Pairwise.sublist (List.take_sublist _ _) ?_
    rw [List.pairwise_append]
    refine ⟨?_, ?_, ?_⟩
    · refine (pairwise_indexOf_firstDedup (text.filter isColorfulSymbol)).imp_of_mem ?_
      intro a b ha hb hlt
      rw [mem_firstDedup] at ha hb
      have haS : a ∈ COLORFUL_SYMBOLS := (isColorfulSymbol_iff a).mp (List.mem_filter.mp ha).2
      refine ⟨fun _ => haS, fun _ _ => ?_, fun hra _ => ?_⟩
      · exact indexOf_filter_lt isColorfulSymbol text a b ha hb hlt
      · rw [symbols_not_in_range a haS] at hra
        exact Bool.noConfusion hra
    · refine (pairwise_indexOf_firstDedup (text.filter inColorfulRange)).imp_of_mem ?_
      intro a b ha hb hlt
      rw [mem_firstDedup] at ha hb
      have haR : inColorfulRange a = true := (List.mem_filter.mp ha).2
      have hbR : inColorfulRange b = true := (List.mem_filter.mp hb).2
      have haNS : a ∉ COLORFUL_SYMBOLS := by
        intro hh
        rw [symbols_not_in_range a hh] at haR
        exact Bool.noConfusion haR
      have hbNS : b ∉ COLORFUL_SYMBOLS := by
        intro hh
        rw [symbols_not_in_range b hh] at hbR
        exact Bool.noConfusion hbR
      exact ⟨fun hbS => absurd hbS hbNS, fun haS _ => absurd haS haNS,
        fun _ _ => indexOf_filter_lt inColorfulRange text a b ha hb hlt⟩
    · intro a ha b hb
      rw [mem_firstDedup] at ha hb
      have haS : a ∈ COLORFUL_SYMBOLS := (isColorfulSymbol_iff a).mp (List.mem_filter.mp ha).2
      have hbR : inColorfulRange b = true := (List.mem_filter.mp hb).2
      have hbNS : b ∉ COLORFUL_SYMBOLS := by
        intro hh
        rw [symbols_not_in_range b hh] at hbR
        exact Bool.noConfusion hbR
      refine ⟨fun hbS => absurd hbS hbNS, fun _ hbS => absurd hbS hbNS, fun hra _ => ?_⟩
      rw [symbols_not_in_range a haS] at hra
      exact Bool.noConfusion hra

/-! ### C9 -/

/-- C9: the detector and the example collector agree — `has_emojis` is true
iff `get_emoji_examples` at the default budget 3 is non-empty; consequently
every denial interpolates the space-joined example characters and the
`"detected"` fallback is unreachable. -/
theorem has_emojis_iff_examples_nonempty :
    (∀ text : List Char, has_emojis text = true ↔ get_emoji_examples text 3 ≠ []) ∧
    ∀ (input_data : HookInput) (d : Denial),
      process_hook_request input_data = some d →
      get_emoji_examples
        (extract_content_from_tool_input input_data.tool_name input_data.tool_input) 3 ≠ [] ∧
      d.examples_str = List.intercalate [' ']
        ((get_emoji_examples
          (extract_content_from_tool_input input_data.tool_name
            input_data.tool_input)).map (fun c => [c])) := by
  have hiff : ∀ text : List Char,
      has_emojis text = true ↔ get_emoji_examples text 3 ≠ [] := by
    intro text
    rw [hasEmojis_iff_exists, get_emoji_examples_eq text 3 (by omega)]
    constructor
    · rintro ⟨c, hc, hcs | hcr⟩ <;> intro hnil <;> rw [List.take_eq_nil_iff] at hnil <;>
        rcases hnil with h3 | happ
      · exact absurd h3 (by decide)
      · have hS := (List.append_eq_nil.mp happ).1
        rw [firstDedup_eq_nil_iff] at hS
        have hcf : c ∈ text.filter isColorfulSymbol := List.mem_filter.mpr ⟨hc, hcs⟩
        rw [hS] at hcf
        exact absurd hcf (List.not_mem_nil c)
      · exact absurd h3 (by decide)
      · have hR := (List.append_eq_nil.mp happ).2
        rw [firstDedup_eq_nil_iff] at hR
        have hcf : c ∈ text.filter inColorfulRange := List.mem_filter.mpr ⟨hc, hcr⟩
        rw [hR] at hcf
        exact absurd hcf (List.not_mem_nil c)
    · intro hne
      have happ : firstDedup (text.filter isColorfulSymbol) ++
          firstDedup (text.filter inColorfulRange) ≠ [] := by
        intro hh
        exact hne (by rw [hh, List.take_nil])
      by_cases hSn : firstDedup (text.filter isColorfulSymbol) = []
      · have hRn : firstDedup (text.filter inColorfulRange) ≠ [] := by
          intro hh
          exact happ (by rw [hSn, hh, List.append_nil])
        obtain ⟨c, hcR⟩ := List.exists_mem_of_ne_nil _ hRn
        have := List.mem_filter.mp ((mem_firstDedup _ c).mp hcR)
        exact ⟨c, this.1, Or.inr this.2⟩
      · obtain ⟨c, hcS⟩ := List.exists_mem_of_ne_nil _ hSn
        have := List.mem_filter.mp ((mem_firstDedup _ c).mp hcS)
        exact ⟨c, this.1, Or.inl this.2⟩
  refine ⟨hiff, fun input_data d h => ?_⟩
  rw [process_hook_request_eq] at h
  split at h
  · split at h
    · split at h
      · have hhe : has_emojis (extract_content_from_tool_input
            input_data.tool_name input_data.tool_input) = true := by assumption
        have hne := (hiff _).mp hhe
        have hE : (get_emoji_examples (extract_content_from_tool_input
            input_data.tool_name input_data.tool_input)).isEmpty = false := by
          cases hE : (get_emoji_examples (extract_content_from_tool_input
              input_data.tool_name input_data.tool_input)).isEmpty
          · rfl
          · rw [List.isEmpty_iff] at hE
            exact absurd hE hne
        rw [hE] at h
        have hd := (Option.some.inj h).symm
        subst hd
        exact ⟨hne, by simp⟩
      · exact Option.noConfusion h
    · exact Option.noConfusion h
  · exact Option.noConfusion h

/-- C9 witness: a concrete denial carries the joined example characters, not
the `"detected"` fallback. -/
theorem has_emojis_iff_examples_nonempty_witness :
    has_emojis ['✅'] = true ∧
    get_emoji_examples ['✅'] 3 ≠ [] ∧
    process_hook_request
      ⟨"Write", ⟨some ("a.py".toList), some ['✅'], none, none⟩⟩ =
      some ⟨"Python", "a.py".toList, ['✅']⟩ ∧
    get_emoji_examples
      (extract_content_from_tool_input
        (⟨"Write", ⟨some ("a.py".toList), some ['✅'], none, none⟩⟩ : HookInput).tool_name
        (⟨"Write", ⟨some ("a.py".toList), some ['✅'], none, none⟩⟩ :
          HookInput).tool_input) 3 ≠ [] :=
  ⟨by decide, (has_emojis_iff_examples_nonempty.1 ['✅']).mp (by decide), by decide,
    (has_emojis_iff_examples_nonempty.2
      ⟨"Write", ⟨some ("a.py".toList), some ['✅'], none, none⟩⟩
      ⟨"Python", "a.py".toList, ['✅']⟩ (by decide)).1⟩

end EmojiChecker
